import Mathlib

/-!
# FitPlan-Assistant: prefix index and BMI categories

A shallow embedding of `main.cpp`:

* `TrieNode`, `Trie.insert`, `Trie.suggest`, `findSuggestions` (the prefix index);
* `User.calculateBMI`, `User.healthCategory` (the memoised derived value and its
  classification), over exact rational arithmetic;
* `categorizeUsersByBMI`, `listUsersByBMICategory` (the category buckets).

Modelling conventions.

* A `std::string` that is walked character by character is a `List Char` (`Str`);
  category labels, which are only compared, are `String`.
* `unordered_map<char, TrieNode*>` is the list of its entries in iteration order.
  The position a new entry takes is implementation defined, so it is a parameter
  (`MapOrder`): every result below holds for every such policy.
* A stored `TrieNode*` is an `Option TrieNode`; `none` is `nullptr`.  Dereferencing
  it makes the computation fail (`none` as a result).
* `double` is `ℚ`.
* `map<string, set<User*>>` is a list of buckets sorted by label; a `User*` into
  the `users` vector is the index of the record.
-/

namespace FitPlan

/-! ## The prefix index -/

/-- A `std::string` seen as its sequence of characters. -/
abbrev Str := List Char

/-- The class `TrieNode`: the entries of `children` in iteration order, and the flag
`isEndOfWord`. -/
inductive TrieNode where
  | mk (children : List (Char × Option TrieNode)) (isEndOfWord : Bool)

/-- The type of `TrieNode::children`. -/
abbrev ChildMap := List (Char × Option TrieNode)

/-- The field `children`. -/
def TrieNode.children : TrieNode → ChildMap
  | .mk ch _ => ch

/-- The field `isEndOfWord`. -/
def TrieNode.isEndOfWord : TrieNode → Bool
  | .mk _ e => e

/-- The iteration order of an `unordered_map`: `place e l` is the entry sequence after
the entry `e`, whose key is new, has been added to the map with entries `l`. -/
structure MapOrder where
  /-- The entry sequence after an insertion. -/
  place : Char × Option TrieNode → ChildMap → ChildMap
  /-- An insertion adds the entry and keeps the others. -/
  perm : ∀ e l, (place e l).Perm (e :: l)

/-- The order in which a new entry is visited last. -/
def insertionOrder : MapOrder where
  place e l := l ++ [e]
  perm e l := List.perm_append_singleton e l

/-- The order in which a new entry is visited first. -/
def reverseOrder : MapOrder where
  place e l := e :: l
  perm _ _ := List.Perm.refl _

/-- The value stored under key `c`: `none` when the key is absent, `some none` when a
null pointer is stored. -/
def lookup (c : Char) : ChildMap → Option (Option TrieNode)
  | [] => none
  | (k, v) :: r => if k = c then some v else lookup c r

/-- The effect on the map of evaluating `children[c]`: an absent key is added with a
null pointer. -/
def touch (H : MapOrder) (c : Char) (m : ChildMap) : ChildMap :=
  match lookup c m with
  | none => H.place (c, none) m
  | some _ => m

/-- The assignment `children[c] = v` for a key that is present. -/
def assign (c : Char) (v : Option TrieNode) : ChildMap → ChildMap
  | [] => []
  | (k, w) :: r => if k = c then (k, v) :: r else (k, w) :: assign c v r

/-- The loop of `Trie::insert` started at `node`, returning the updated node.
`children[c]` is evaluated (`touch`), a null child is replaced by `new TrieNode()`,
and the loop goes on in that child. -/
def insertNode (H : MapOrder) : Str → TrieNode → TrieNode
  | [], .mk ch _ => .mk ch true
  | c :: cs, .mk ch e =>
    let ch1 := touch H c ch
    let child :=
      match lookup c ch1 with
      | some (some n) => n
      | _ => TrieNode.mk [] false
    .mk (assign c (some (insertNode H cs child)) ch1) e

/-- The class `Trie`. -/
structure Trie where
  /-- The root node. -/
  root : TrieNode

/-- The constructor `Trie()`. -/
def Trie.new : Trie := ⟨.mk [] false⟩

/-- The method `Trie::insert`. -/
def Trie.insert (H : MapOrder) (t : Trie) (word : Str) : Trie :=
  ⟨insertNode H word t.root⟩

mutual
/-- The method `Trie::findSuggestions`; `none` when a null node is dereferenced. -/
def findSuggestions : TrieNode → Str → List Str → Option (List Str)
  | .mk ch e, current, suggestions =>
    findChildren ch current (if e then suggestions ++ [current] else suggestions)
/-- The loop `for (auto& child : node->children)` of `findSuggestions`. -/
def findChildren : ChildMap → Str → List Str → Option (List Str)
  | [], _, suggestions => some suggestions
  | (_, none) :: _, _, _ => none
  | (c, some n) :: r, current, suggestions =>
    match findSuggestions n (current ++ [c]) suggestions with
    | none => none
    | some s => findChildren r current s
end

/-- The loop of `Trie::suggest` started at `node`: the updated node (evaluating
`children[c]` may add a null entry) and the node the walk lands on, `none` when the
walk returns early. -/
def walk (H : MapOrder) : Str → TrieNode → TrieNode × Option TrieNode
  | [], n => (n, some n)
  | c :: cs, .mk ch e =>
    let ch1 := touch H c ch
    match lookup c ch1 with
    | some (some child) =>
      let r := walk H cs child
      (.mk (assign c (some r.1) ch1) e, r.2)
    | _ => (.mk ch1 e, none)

/-- The method `Trie::suggest`: the index after the call and the returned sequence,
`none` when the traversal dereferences a null node. -/
def Trie.suggest (H : MapOrder) (t : Trie) (pre : Str) : Trie × Option (List Str) :=
  match walk H pre t.root with
  | (r, none) => (⟨r⟩, some [])
  | (r, some node) => (⟨r⟩, findSuggestions node pre [])

/-- The index built by inserting the strings of `ws` in turn into a fresh index. -/
def build (H : MapOrder) (ws : List Str) : Trie :=
  ws.foldl (Trie.insert H) Trie.new

/-- A call of the index. -/
inductive Op where
  | insert (word : Str)
  | suggest (pre : Str)

/-- The index after one call; for `suggest`, the index as its walk leaves it, whether
or not the traversal that follows succeeds. -/
def Op.apply (H : MapOrder) (t : Trie) : Op → Trie
  | .insert w => t.insert H w
  | .suggest p => (t.suggest H p).1

/-- The index after a sequence of calls on a fresh index.  A call that fails ends the
program, so the indexes the program can reach are among these. -/
def run (H : MapOrder) (ops : List Op) : Trie :=
  ops.foldl (Op.apply H) Trie.new

/-- The strings inserted by a sequence of calls. -/
def inserted : List Op → List Str
  | [] => []
  | .insert w :: r => w :: inserted r
  | .suggest _ :: r => inserted r

/-- A null pointer is stored somewhere in the tree. -/
inductive HasNull : TrieNode → Prop where
  | stored (ch : ChildMap) (e : Bool) (c : Char) : (c, none) ∈ ch → HasNull (.mk ch e)
  | deeper (ch : ChildMap) (e : Bool) (c : Char) (n : TrieNode) :
      (c, some n) ∈ ch → HasNull n → HasNull (.mk ch e)

/-! ## Records and their derived value -/

/-- The struct `User`; `cachedBMI` is the mutable cache, `-1` when unset. -/
structure User where
  /-- Name of the user. -/
  name : Str
  /-- Age of the user. -/
  age : Int
  /-- Weight in kilograms. -/
  weight : ℚ
  /-- Height in meters. -/
  height : ℚ
  /-- Whether the user is vegetarian. -/
  isVegetarian : Bool
  /-- Cached BMI value. -/
  cachedBMI : ℚ := -1

/-- The method `User::calculateBMI`: the returned value and the record after the
call (the cache is written when the guard `cachedBMI < 0` holds). -/
def User.calculateBMI (u : User) : ℚ × User :=
  if u.cachedBMI < 0 then
    let u1 := { u with cachedBMI := u.weight / (u.height * u.height) }
    (u1.cachedBMI, u1)
  else
    (u.cachedBMI, u)

/-- The method `User::healthCategory`: the returned label and the record after the
call. -/
def User.healthCategory (u : User) : String × User :=
  let r := u.calculateBMI
  let bmi := r.1
  if bmi < 18.5 then ("Underweight", r.2)
  else if bmi < 24.9 then ("Normal weight", r.2)
  else if bmi < 29.9 then ("Overweight", r.2)
  else ("Obese", r.2)

/-! ## The category buckets -/

/-- The type of `bmiCategories`: buckets in ascending order of their label, each
holding the positions of its records in ascending order. -/
abbrev Buckets := List (String × List Nat)

/-- The call `set<User*>::insert`. -/
def setInsert (p : Nat) : List Nat → List Nat
  | [] => [p]
  | q :: r =>
    if p < q then p :: q :: r
    else if q < p then q :: setInsert p r
    else q :: r

/-- The statement `bmiCategories[k].insert(p)`: the bucket of `k` is created empty
at its place in the key order when it is absent, and `p` is added to it. -/
def bucketInsert (k : String) (p : Nat) : Buckets → Buckets
  | [] => [(k, setInsert p [])]
  | (k1, s) :: r =>
    if k < k1 then (k, setInsert p []) :: (k1, s) :: r
    else if k1 < k then (k1, s) :: bucketInsert k p r
    else (k1, setInsert p s) :: r

/-- The class `FitPlanAssistant`, without the meal plans and the data file. -/
structure FitPlanAssistant where
  /-- List of all users. -/
  users : List User
  /-- Users by BMI category. -/
  bmiCategories : Buckets
  /-- Trie of the user names. -/
  userTrie : Trie

/-- The loop `for (auto& user : users)` of `categorizeUsersByBMI`, the next record
being at position `i`: the records after the calls of `healthCategory`, and the
buckets. -/
def categorizeLoop : Nat → List User → Buckets → List User × Buckets
  | _, [], m => ([], m)
  | i, u :: us, m =>
    let r := u.healthCategory
    let rest := categorizeLoop (i + 1) us (bucketInsert r.1 i m)
    (r.2 :: rest.1, rest.2)

/-- The method `FitPlanAssistant::categorizeUsersByBMI`; the loop starts from the
cleared map. -/
def FitPlanAssistant.categorizeUsersByBMI (a : FitPlanAssistant) : FitPlanAssistant :=
  let r := categorizeLoop 0 a.users []
  { a with users := r.1, bmiCategories := r.2 }

/-- The inner loop of `listUsersByBMICategory` over one bucket: the printed names
and derived values, and the records after the calls of `calculateBMI`; `none` when
a pointer does not refer to a record. -/
def listBucket : List Nat → List User → Option (List (Str × ℚ) × List User)
  | [], users => some ([], users)
  | p :: ps, users =>
    match users.get? p with
    | none => none
    | some u =>
      let r := u.calculateBMI
      match listBucket ps (users.set p r.2) with
      | none => none
      | some (out, users1) => some ((u.name, r.1) :: out, users1)

/-- The outer loop of `listUsersByBMICategory` over the buckets. -/
def listBuckets : Buckets → List User → Option (List (String × List (Str × ℚ)) × List User)
  | [], users => some ([], users)
  | (category, usersSet) :: r, users =>
    match listBucket usersSet users with
    | none => none
    | some (names, users1) =>
      match listBuckets r users1 with
      | none => none
      | some (out, users2) => some ((category, names) :: out, users2)

/-- The method `FitPlanAssistant::listUsersByBMICategory`: what is printed (each
category followed by the name and derived value of its records) and the assistant
after the call. -/
def FitPlanAssistant.listUsersByBMICategory (a : FitPlanAssistant) :
    Option (List (String × List (Str × ℚ)) × FitPlanAssistant) :=
  match listBuckets a.bmiCategories a.users with
  | none => none
  | some (out, users1) => some (out, { a with users := users1 })

/-- The classification table of the specification (section 4.3). -/
def specCategory (v : ℚ) : String :=
  if v < 18.5 then "Underweight"
  else if 18.5 ≤ v ∧ v < 24.9 then "Normal weight"
  else if 24.9 ≤ v ∧ v < 29.9 then "Overweight"
  else "Obese"

/-- The rank of a label on the scale of the specification,
`"Underweight" < "Normal weight" < "Overweight" < "Obese"`. -/
def categoryRank (label : String) : Nat :=
  if label = "Underweight" then 0
  else if label = "Normal weight" then 1
  else if label = "Overweight" then 2
  else 3

/-- The record Alice of the end-to-end scenario. -/
def alice : User :=
  { name := "Alice".toList, age := 30, weight := 50, height := 1.60, isVegetarian := false }

/-- The record Alan of the end-to-end scenario. -/
def alan : User :=
  { name := "Alan".toList, age := 40, weight := 90, height := 1.70, isVegetarian := true }

/-- The record Bob, overweight. -/
def bob : User :=
  { name := "Bob".toList, age := 35, weight := 80, height := 1.75, isVegetarian := false }

/-- The record Carol, underweight. -/
def carol : User :=
  { name := "Carol".toList, age := 25, weight := 45, height := 1.70, isVegetarian := true }

/-- The values returned by `k` successive calls of `calculateBMI`, and the record after
them. -/
def User.calculateBMITimes : Nat → User → List ℚ × User
  | 0, u => ([], u)
  | k + 1, u =>
    let r := u.calculateBMI
    let rest := User.calculateBMITimes k r.2
    (r.1 :: rest.1, rest.2)

/-- Whether the bucket labelled `k` holds the position `p`. -/
def Holds (m : Buckets) (k : String) (p : Nat) : Prop :=
  ∃ s, (k, s) ∈ m ∧ p ∈ s

/-! ### Reading the index without changing it -/

/-- The node reached from `n` along `p`, `none` when a key is absent or null. -/
def descend : Str → TrieNode → Option TrieNode
  | [], n => some n
  | c :: cs, .mk ch _ =>
    match lookup c ch with
    | some (some n) => descend cs n
    | _ => none

/-- Whether the path `w` from `n` ends in a node marked as end of word. -/
def isWord (w : Str) (n : TrieNode) : Bool :=
  match descend w n with
  | some m => m.isEndOfWord
  | none => false

mutual
/-- The strings spelled below a node, in traversal order. -/
def words : TrieNode → List Str
  | .mk ch e => (if e then [[]] else []) ++ wordsCh ch
/-- The strings spelled below the entries of a child map, in traversal order. -/
def wordsCh : ChildMap → List Str
  | [] => []
  | (_, none) :: r => wordsCh r
  | (c, some n) :: r => (words n).map (c :: ·) ++ wordsCh r
end

/-- Keys are unique in every child map of the tree. -/
inductive Inv : TrieNode → Prop where
  | mk (ch : ChildMap) (e : Bool) : (ch.map Prod.fst).Nodup →
      (∀ c n, (c, some n) ∈ ch → Inv n) → Inv (.mk ch e)

/-- No null pointer is stored anywhere in the tree. -/
inductive NoNull : TrieNode → Prop where
  | mk (ch : ChildMap) (e : Bool) : (∀ c, (c, none) ∉ ch) →
      (∀ c n, (c, some n) ∈ ch → NoNull n) → NoNull (.mk ch e)

/-! ## Child maps -/

theorem lookup_eq_none_iff (c : Char) (l : ChildMap) :
    lookup c l = none ↔ c ∉ l.map Prod.fst := by
  induction l with
  | nil => simp [lookup]
  | cons a r ih =>
    obtain ⟨k, v⟩ := a
    by_cases h : k = c
    · simp [lookup, h]
    · have h1 : ¬ c = k := fun e => h e.symm
      simp [lookup, h, h1, ih]

theorem lookup_mem {c : Char} {v : Option TrieNode} {l : ChildMap}
    (h : lookup c l = some v) : (c, v) ∈ l := by
  induction l with
  | nil => simp [lookup] at h
  | cons a r ih =>
    obtain ⟨k, w⟩ := a
    by_cases hk : k = c
    · simp [lookup, hk] at h
      simp [hk, h]
    · simp [lookup, hk] at h
      exact List.mem_cons_of_mem _ (ih h)

theorem lookup_of_mem {c : Char} {v : Option TrieNode} {l : ChildMap}
    (nd : (l.map Prod.fst).Nodup) (h : (c, v) ∈ l) : lookup c l = some v := by
  induction l with
  | nil => simp at h
  | cons a r ih =>
    obtain ⟨k, w⟩ := a
    simp only [List.map_cons, List.nodup_cons] at nd
    rcases List.mem_cons.1 h with h1 | h1
    · cases h1
      simp [lookup]
    · have hk : k ≠ c := by
        intro e
        subst e
        exact nd.1 (List.mem_map_of_mem Prod.fst h1)
      simp [lookup, hk, ih nd.2 h1]

theorem lookup_perm {l₁ l₂ : ChildMap} (h : l₁.Perm l₂) (nd : (l₁.map Prod.fst).Nodup)
    (c : Char) : lookup c l₁ = lookup c l₂ := by
  have nd2 : (l₂.map Prod.fst).Nodup := (h.map Prod.fst).nodup_iff.1 nd
  cases h1 : lookup c l₁ with
  | none =>
    have h2 : c ∉ l₂.map Prod.fst := by
      rw [← (h.map Prod.fst).mem_iff]
      exact (lookup_eq_none_iff c l₁).1 h1
    exact ((lookup_eq_none_iff c l₂).2 h2).symm
  | some v => exact (lookup_of_mem nd2 (h.mem_iff.1 (lookup_mem h1))).symm

theorem lookup_touch_self (H : MapOrder) (c : Char) (l : ChildMap) :
    lookup c (touch H c l) = some ((lookup c l).getD none) := by
  unfold touch
  cases h : lookup c l with
  | some v => simp [h]
  | none =>
    simp only [Option.getD_none]
    have hk := (lookup_eq_none_iff c l).1 h
    cases h2 : lookup c (H.place (c, none) l) with
    | none =>
      exfalso
      refine (lookup_eq_none_iff c _).1 h2 ?_
      rw [((H.perm (c, none) l).map Prod.fst).mem_iff]
      simp
    | some v =>
      have hm := (H.perm (c, none) l).mem_iff.1 (lookup_mem h2)
      rcases List.mem_cons.1 hm with h3 | h3
      · cases h3
        rfl
      · exact absurd (List.mem_map_of_mem Prod.fst h3) hk

theorem lookup_touch_ne (H : MapOrder) {c k : Char} (l : ChildMap)
    (nd : (l.map Prod.fst).Nodup) (h : k ≠ c) : lookup k (touch H c l) = lookup k l := by
  unfold touch
  cases h1 : lookup c l with
  | some v => rfl
  | none =>
    have hk := (lookup_eq_none_iff c l).1 h1
    have nd1 : (((c, none) :: l : ChildMap).map Prod.fst).Nodup := by
      simp only [List.map_cons, List.nodup_cons]
      exact ⟨hk, nd⟩
    have nd2 : ((H.place (c, none) l).map Prod.fst).Nodup :=
      ((H.perm (c, none) l).map Prod.fst).nodup_iff.2 nd1
    rw [lookup_perm (H.perm (c, none) l) nd2 k]
    have h2 : ¬ c = k := fun e => h e.symm
    simp [lookup, h2]

theorem keys_touch_nodup (H : MapOrder) (c : Char) (l : ChildMap)
    (nd : (l.map Prod.fst).Nodup) : ((touch H c l).map Prod.fst).Nodup := by
  unfold touch
  cases h1 : lookup c l with
  | some v => exact nd
  | none =>
    have hk := (lookup_eq_none_iff c l).1 h1
    refine ((H.perm (c, none) l).map Prod.fst).nodup_iff.2 ?_
    simp only [List.map_cons, List.nodup_cons]
    exact ⟨hk, nd⟩

theorem mem_touch (H : MapOrder) {c : Char} {l : ChildMap} {e : Char × Option TrieNode}
    (h : e ∈ touch H c l) : e ∈ l ∨ e = (c, none) := by
  unfold touch at h
  cases h1 : lookup c l with
  | some v =>
    rw [h1] at h
    exact Or.inl h
  | none =>
    rw [h1] at h
    rcases List.mem_cons.1 ((H.perm (c, none) l).mem_iff.1 h) with h2 | h2
    · exact Or.inr h2
    · exact Or.inl h2

theorem keys_assign (c : Char) (v : Option TrieNode) (l : ChildMap) :
    (assign c v l).map Prod.fst = l.map Prod.fst := by
  induction l with
  | nil => rfl
  | cons a r ih =>
    obtain ⟨k, w⟩ := a
    by_cases hk : k = c
    · simp [assign, hk]
    · simp [assign, hk, ih]

theorem lookup_assign_self {c : Char} (v : Option TrieNode) {l : ChildMap}
    (h : lookup c l ≠ none) : lookup c (assign c v l) = some v := by
  induction l with
  | nil => simp [lookup] at h
  | cons a r ih =>
    obtain ⟨k, w⟩ := a
    by_cases hk : k = c
    · simp [assign, lookup, hk]
    · simp only [lookup, hk, if_false] at h
      simp [assign, lookup, hk, ih h]

theorem lookup_assign_ne {c k : Char} (v : Option TrieNode) (l : ChildMap) (h : k ≠ c) :
    lookup k (assign c v l) = lookup k l := by
  induction l with
  | nil => rfl
  | cons a r ih =>
    obtain ⟨k1, w⟩ := a
    by_cases hk : k1 = c
    · subst hk
      have h2 : ¬ k1 = k := fun e => h e.symm
      simp [assign, lookup, h2]
    · by_cases hk2 : k1 = k
      · subst hk2
        simp [assign, lookup, h]
      · simp [assign, lookup, hk, hk2, ih]

theorem assign_assign (c : Char) (v w : Option TrieNode) (l : ChildMap) :
    assign c v (assign c w l) = assign c v l := by
  induction l with
  | nil => rfl
  | cons a r ih =>
    obtain ⟨k, x⟩ := a
    by_cases hk : k = c
    · simp [assign, hk]
    · simp [assign, hk, ih]

theorem assign_self {c : Char} {v : Option TrieNode} {l : ChildMap}
    (h : lookup c l = some v) : assign c v l = l := by
  induction l with
  | nil => rfl
  | cons a r ih =>
    obtain ⟨k, x⟩ := a
    by_cases hk : k = c
    · simp [lookup, hk] at h
      simp [assign, hk, h]
    · simp only [lookup, hk, if_false] at h
      simp [assign, hk, ih h]

theorem mem_assign {c : Char} {v : Option TrieNode} {l : ChildMap}
    {e : Char × Option TrieNode} (h : e ∈ assign c v l) : e ∈ l ∨ e = (c, v) := by
  induction l with
  | nil => simp [assign] at h
  | cons a r ih =>
    obtain ⟨k, x⟩ := a
    by_cases hk : k = c
    · simp only [assign, hk, if_true] at h
      rcases List.mem_cons.1 h with h1 | h1
      · exact Or.inr h1
      · exact Or.inl (List.mem_cons_of_mem _ h1)
    · simp only [assign, hk, if_false] at h
      rcases List.mem_cons.1 h with h1 | h1
      · exact Or.inl (h1 ▸ List.mem_cons_self _ _)
      · rcases ih h1 with h2 | h2
        · exact Or.inl (List.mem_cons_of_mem _ h2)
        · exact Or.inr h2

theorem mem_assign_key {c : Char} {v x : Option TrieNode} {l : ChildMap}
    (nd : (l.map Prod.fst).Nodup) (h : (c, x) ∈ assign c v l) : x = v := by
  have nd1 : ((assign c v l).map Prod.fst).Nodup := by rw [keys_assign]; exact nd
  have h1 := lookup_of_mem nd1 h
  have h2 : lookup c l ≠ none := by
    intro e
    have h3 := (lookup_eq_none_iff c l).1 e
    rw [← keys_assign c v l] at h3
    exact h3 (List.mem_map_of_mem Prod.fst h)
  rw [lookup_assign_self v h2] at h1
  exact (Option.some.inj h1).symm

/-! ## Insertion keeps the tree well formed -/

theorem insertNode_cons (H : MapOrder) (c : Char) (cs : Str) (ch : ChildMap) (e : Bool) :
    insertNode H (c :: cs) (.mk ch e) =
      .mk (assign c (some (insertNode H cs
        (match lookup c ch with
          | some (some n) => n
          | _ => TrieNode.mk [] false))) (touch H c ch)) e := by
  simp only [insertNode, lookup_touch_self]
  cases h : lookup c ch with
  | none => rfl
  | some v => cases v <;> rfl

theorem inv_leaf : Inv (.mk [] false) :=
  Inv.mk [] false (by simp) (by simp)

theorem noNull_leaf : NoNull (.mk [] false) :=
  NoNull.mk [] false (by simp) (by simp)

theorem inv_insertNode (H : MapOrder) (w : Str) : ∀ n, Inv n → Inv (insertNode H w n) := by
  induction w with
  | nil =>
    intro n hn
    cases hn with
    | mk ch e nd hc => exact Inv.mk ch true nd hc
  | cons c cs ih =>
    intro n hn
    cases hn with
    | mk ch e nd hc =>
      rw [insertNode_cons]
      refine Inv.mk _ e ?_ ?_
      · rw [keys_assign]
        exact keys_touch_nodup H c ch nd
      · intro k m hm
        rcases mem_assign hm with h1 | h1
        · rcases mem_touch H h1 with h2 | h2
          · exact hc k m h2
          · cases h2
        · cases h1
          apply ih
          cases h3 : lookup c ch with
          | none => exact inv_leaf
          | some v =>
            cases v with
            | none => exact inv_leaf
            | some n0 => exact hc c n0 (lookup_mem h3)

theorem noNull_insertNode (H : MapOrder) (w : Str) :
    ∀ n, Inv n → NoNull n → NoNull (insertNode H w n) := by
  induction w with
  | nil =>
    intro n _ hn
    cases hn with
    | mk ch e h0 hc => exact NoNull.mk ch true h0 hc
  | cons c cs ih =>
    intro n hi hn
    cases hn with
    | mk ch e h0 hc =>
      cases hi with
      | mk _ _ nd hic =>
        rw [insertNode_cons]
        refine NoNull.mk _ e ?_ ?_
        · intro k hk
          rcases mem_assign hk with h1 | h1
          · rcases mem_touch H h1 with h2 | h2
            · exact h0 k h2
            · cases h2
              have h4 := mem_assign_key (keys_touch_nodup H c ch nd) hk
              cases h4
          · cases h1
        · intro k m hm
          rcases mem_assign hm with h1 | h1
          · rcases mem_touch H h1 with h2 | h2
            · exact hc k m h2
            · cases h2
          · cases h1
            cases h3 : lookup c ch with
            | none => exact ih _ inv_leaf noNull_leaf
            | some v =>
              cases v with
              | none => exact ih _ inv_leaf noNull_leaf
              | some n0 => exact ih _ (hic c n0 (lookup_mem h3)) (hc c n0 (lookup_mem h3))

/-! ## The strings an index holds -/

theorem descend_cons (c : Char) (cs : Str) (ch : ChildMap) (e : Bool) :
    descend (c :: cs) (.mk ch e) =
      match lookup c ch with
      | some (some n) => descend cs n
      | _ => none := rfl

theorem isWord_nil (ch : ChildMap) (e : Bool) : isWord [] (.mk ch e) = e := rfl

theorem isWord_leaf (w : Str) : isWord w (.mk [] false) = false := by
  cases w with
  | nil => rfl
  | cons c cs => rfl

theorem isWord_cons (c : Char) (cs : Str) (ch : ChildMap) (e : Bool) :
    isWord (c :: cs) (.mk ch e) =
      match lookup c ch with
      | some (some n) => isWord cs n
      | _ => false := by
  unfold isWord
  rw [descend_cons]
  cases h : lookup c ch with
  | none => rfl
  | some v => cases v <;> rfl

theorem isWord_insertNode (H : MapOrder) (w : Str) :
    ∀ (q : Str) (n : TrieNode), Inv n →
      isWord q (insertNode H w n) = (decide (q = w) || isWord q n) := by
  induction w with
  | nil =>
    intro q n hn
    cases hn with
    | mk ch e nd hc =>
      cases q with
      | nil => simp [insertNode, isWord_nil]
      | cons k ks => simp [insertNode, isWord_cons]
  | cons c cs ih =>
    intro q n hn
    cases hn with
    | mk ch e nd hc =>
      rw [insertNode_cons]
      cases q with
      | nil => simp [isWord_nil]
      | cons k ks =>
        rw [isWord_cons, isWord_cons]
        by_cases hk : k = c
        · subst hk
          have h1 : lookup k (touch H k ch) ≠ none := by
            rw [lookup_touch_self]
            simp
          rw [lookup_assign_self _ h1]
          cases h3 : lookup k ch with
          | none => simp [ih _ _ inv_leaf, isWord_leaf]
          | some v =>
            cases v with
            | none => simp [ih _ _ inv_leaf, isWord_leaf]
            | some n0 => simp [ih _ _ (hc k n0 (lookup_mem h3))]
        · rw [lookup_assign_ne _ _ hk, lookup_touch_ne H ch nd hk]
          simp [hk]

theorem inv_descend : ∀ (p : Str) (n m : TrieNode), Inv n → descend p n = some m → Inv m := by
  intro p
  induction p with
  | nil =>
    intro n m hn h
    cases h
    exact hn
  | cons c cs ih =>
    intro n m hn h
    cases hn with
    | mk ch e nd hc =>
      rw [descend_cons] at h
      cases h3 : lookup c ch with
      | none => simp [h3] at h
      | some v =>
        cases v with
        | none => simp [h3] at h
        | some n0 =>
          simp only [h3] at h
          exact ih n0 m (hc c n0 (lookup_mem h3)) h

theorem noNull_descend :
    ∀ (p : Str) (n m : TrieNode), NoNull n → descend p n = some m → NoNull m := by
  intro p
  induction p with
  | nil =>
    intro n m hn h
    cases h
    exact hn
  | cons c cs ih =>
    intro n m hn h
    cases hn with
    | mk ch e h0 hc =>
      rw [descend_cons] at h
      cases h3 : lookup c ch with
      | none => simp [h3] at h
      | some v =>
        cases v with
        | none => simp [h3] at h
        | some n0 =>
          simp only [h3] at h
          exact ih n0 m (hc c n0 (lookup_mem h3)) h

theorem isWord_append : ∀ (p w : Str) (n : TrieNode),
    isWord (p ++ w) n = (match descend p n with
      | some m => isWord w m
      | none => false) := by
  intro p
  induction p with
  | nil => intro w n; rfl
  | cons c cs ih =>
    intro w n
    cases n with
    | mk ch e =>
      rw [List.cons_append, isWord_cons, descend_cons]
      cases h3 : lookup c ch with
      | none => rfl
      | some v =>
        cases v with
        | none => rfl
        | some n0 => exact ih w n0

theorem walk_snd (H : MapOrder) : ∀ (p : Str) (n : TrieNode), (walk H p n).2 = descend p n := by
  intro p
  induction p with
  | nil => intro n; rfl
  | cons c cs ih =>
    intro n
    cases n with
    | mk ch e =>
      simp only [walk, descend_cons, lookup_touch_self]
      cases h3 : lookup c ch with
      | none => rfl
      | some v =>
        cases v with
        | none => rfl
        | some n0 => exact ih n0

/-! ## The traversal -/

theorem findChildren_eq (ch : ChildMap) (h0 : ∀ c, (c, none) ∉ ch)
    (hc : ∀ c n, (c, some n) ∈ ch → ∀ cur acc,
      findSuggestions n cur acc = some (acc ++ (words n).map (cur ++ ·))) :
    ∀ cur acc, findChildren ch cur acc = some (acc ++ (wordsCh ch).map (cur ++ ·)) := by
  induction ch with
  | nil => intro cur acc; simp [findChildren, wordsCh]
  | cons a r ih =>
    obtain ⟨c, v⟩ := a
    cases v with
    | none => exact absurd (List.mem_cons_self _ _) (h0 c)
    | some n =>
      intro cur acc
      have ih1 := ih (fun k hk => h0 k (List.mem_cons_of_mem _ hk))
        (fun k m hm => hc k m (List.mem_cons_of_mem _ hm))
      simp only [findChildren, hc c n (List.mem_cons_self _ _), ih1, wordsCh]
      simp [List.append_assoc]

theorem findSuggestions_eq (n : TrieNode) (hn : NoNull n) :
    ∀ cur acc, findSuggestions n cur acc = some (acc ++ (words n).map (cur ++ ·)) := by
  induction hn with
  | mk ch e h0 _ ih =>
    intro cur acc
    rw [findSuggestions, findChildren_eq ch h0 ih, words]
    cases e <;> simp

theorem mem_wordsCh (ch : ChildMap) (w : Str) :
    w ∈ wordsCh ch ↔ ∃ c cs n, w = c :: cs ∧ (c, some n) ∈ ch ∧ cs ∈ words n := by
  induction ch with
  | nil => simp [wordsCh]
  | cons a r ih =>
    obtain ⟨k, v⟩ := a
    cases v with
    | none =>
      rw [wordsCh, ih]
      constructor
      · rintro ⟨c, cs, n, h1, h2, h3⟩
        exact ⟨c, cs, n, h1, List.mem_cons_of_mem _ h2, h3⟩
      · rintro ⟨c, cs, n, h1, h2, h3⟩
        rcases List.mem_cons.1 h2 with h4 | h4
        · cases h4
        · exact ⟨c, cs, n, h1, h4, h3⟩
    | some m =>
      rw [wordsCh, List.mem_append, ih]
      constructor
      · rintro (h | ⟨c, cs, n, h1, h2, h3⟩)
        · obtain ⟨cs, h1, h2⟩ := List.mem_map.1 h
          exact ⟨k, cs, m, h2.symm, List.mem_cons_self _ _, h1⟩
        · exact ⟨c, cs, n, h1, List.mem_cons_of_mem _ h2, h3⟩
      · rintro ⟨c, cs, n, h1, h2, h3⟩
        rcases List.mem_cons.1 h2 with h4 | h4
        · cases h4
          exact Or.inl (List.mem_map.2 ⟨cs, h3, h1.symm⟩)
        · exact Or.inr ⟨c, cs, n, h1, h4, h3⟩

theorem mem_words (n : TrieNode) (hn : Inv n) : ∀ w, w ∈ words n ↔ isWord w n = true := by
  induction hn with
  | mk ch e nd _ ih =>
    intro w
    rw [words, List.mem_append, mem_wordsCh]
    cases w with
    | nil =>
      rw [isWord_nil]
      cases e <;> simp
    | cons c cs =>
      rw [isWord_cons]
      have h1 : ¬ (c :: cs ∈ (if e = true then [([] : Str)] else [])) := by
        cases e <;> simp
      constructor
      · rintro (h | ⟨k, ks, n, h2, h3, h4⟩)
        · exact absurd h h1
        · cases h2
          rw [lookup_of_mem nd h3]
          exact (ih c n h3 cs).1 h4
      · intro h
        cases h3 : lookup c ch with
        | none => simp [h3] at h
        | some v =>
          cases v with
          | none => simp [h3] at h
          | some n0 =>
            simp only [h3] at h
            exact Or.inr ⟨c, cs, n0, rfl, lookup_mem h3,
              (ih c n0 (lookup_mem h3) cs).2 h⟩

theorem pairwise_wordsCh (ch : ChildMap) (nd : (ch.map Prod.fst).Nodup)
    (hc : ∀ c n, (c, some n) ∈ ch → List.Pairwise (fun a b : Str => ¬ b <+: a) (words n)) :
    List.Pairwise (fun a b : Str => ¬ b <+: a) (wordsCh ch) := by
  induction ch with
  | nil => simp [wordsCh]
  | cons a r ih =>
    obtain ⟨k, v⟩ := a
    simp only [List.map_cons, List.nodup_cons] at nd
    have ih1 := ih nd.2 (fun c n hm => hc c n (List.mem_cons_of_mem _ hm))
    cases v with
    | none => rw [wordsCh]; exact ih1
    | some m =>
      rw [wordsCh, List.pairwise_append]
      refine ⟨?_, ih1, ?_⟩
      · rw [List.pairwise_map]
        refine (hc k m (List.mem_cons_self _ _)).imp ?_
        intro a b hab h
        exact hab (List.cons_prefix_cons.1 h).2
      · intro a ha b hb h
        obtain ⟨a1, _, rfl⟩ := List.mem_map.1 ha
        obtain ⟨c, cs, n, rfl, h2, _⟩ := (mem_wordsCh r b).1 hb
        have h3 := (List.cons_prefix_cons.1 h).1
        subst h3
        exact nd.1 (List.mem_map_of_mem Prod.fst h2)

theorem pairwise_words (n : TrieNode) (hn : Inv n) :
    List.Pairwise (fun a b : Str => ¬ b <+: a) (words n) := by
  induction hn with
  | mk ch e nd _ ih =>
    rw [words, List.pairwise_append]
    refine ⟨?_, pairwise_wordsCh ch nd ih, ?_⟩
    · cases e <;> simp
    · intro a ha b hb h
      obtain ⟨c, cs, n, rfl, _, _⟩ := (mem_wordsCh ch b).1 hb
      have ha1 : a = [] := by
        cases e <;> simp at ha
        exact ha
      subst ha1
      simp at h

/-! ## Indexes built by insertions -/

theorem foldl_insert_spec (H : MapOrder) (ws : List Str) :
    ∀ t : Trie, Inv t.root → NoNull t.root →
      Inv (ws.foldl (Trie.insert H) t).root ∧ NoNull (ws.foldl (Trie.insert H) t).root ∧
        ∀ q, isWord q (ws.foldl (Trie.insert H) t).root = (decide (q ∈ ws) || isWord q t.root) := by
  induction ws with
  | nil => intro t hi hn; simp [hi, hn]
  | cons w r ih =>
    intro t hi hn
    have hi1 : Inv (t.insert H w).root := inv_insertNode H w _ hi
    have hn1 : NoNull (t.insert H w).root := noNull_insertNode H w _ hi hn
    obtain ⟨h1, h2, h3⟩ := ih (t.insert H w) hi1 hn1
    refine ⟨h1, h2, ?_⟩
    intro q
    rw [List.foldl_cons, h3 q]
    show (decide (q ∈ r) || isWord q (insertNode H w t.root)) = _
    rw [isWord_insertNode H w q _ hi]
    by_cases hq : q = w
    · simp [hq]
    · simp [hq]

theorem inv_build (H : MapOrder) (ws : List Str) : Inv (build H ws).root :=
  (foldl_insert_spec H ws Trie.new inv_leaf noNull_leaf).1

theorem noNull_build (H : MapOrder) (ws : List Str) : NoNull (build H ws).root :=
  (foldl_insert_spec H ws Trie.new inv_leaf noNull_leaf).2.1

theorem isWord_build (H : MapOrder) (ws : List Str) (q : Str) :
    isWord q (build H ws).root = true ↔ q ∈ ws := by
  have h := (foldl_insert_spec H ws Trie.new inv_leaf noNull_leaf).2.2 q
  unfold build
  rw [h]
  have h1 : isWord q Trie.new.root = false := isWord_leaf q
  simp [h1]

/-- What `suggest` returns on a tree without null entries and with unique keys. -/
theorem suggest_eq (H : MapOrder) (t : Trie) (hn : NoNull t.root) (pre : Str) :
    (t.suggest H pre).2 =
      some (match descend pre t.root with
        | some m => (words m).map (pre ++ ·)
        | none => []) := by
  unfold Trie.suggest
  have h := walk_snd H pre t.root
  cases hw : walk H pre t.root with
  | mk r o =>
    rw [hw] at h
    simp only at h
    subst h
    cases hd : descend pre t.root with
    | none => rfl
    | some m =>
      simp only
      rw [findSuggestions_eq m (noNull_descend pre _ m hn hd)]
      simp

theorem touch_of_lookup (H : MapOrder) {c : Char} {m : ChildMap} {v : Option TrieNode}
    (h : lookup c m = some v) : touch H c m = m := by
  unfold touch
  rw [h]

theorem count_of_nodup (l : List Str) (s : Str) (nd : l.Nodup) (h : s ∈ l) :
    l.count s = 1 := by
  induction l with
  | nil => simp at h
  | cons a r ih =>
    rw [List.nodup_cons] at nd
    rw [List.count_cons]
    by_cases ha : a = s
    · subst ha
      simp [List.count_eq_zero_of_not_mem nd.1]
    · have hs : s ∈ r := by
        rcases List.mem_cons.1 h with h1 | h1
        · exact absurd h1.symm ha
        · exact h1
      simp [ih nd.2 hs, ha]

theorem insertNode_idem (H : MapOrder) (w : Str) :
    ∀ n, insertNode H w (insertNode H w n) = insertNode H w n := by
  induction w with
  | nil =>
    intro n
    cases n with
    | mk ch e => rfl
  | cons c cs ih =>
    intro n
    cases n with
    | mk ch e =>
      rw [insertNode_cons, insertNode_cons]
      have h1 : lookup c (touch H c ch) ≠ none := by
        rw [lookup_touch_self]
        simp
      generalize hx : (match lookup c ch with
          | some (some n) => n
          | _ => TrieNode.mk [] false) = child
      have h2 := lookup_assign_self (some (insertNode H cs child)) h1
      rw [touch_of_lookup H h2, h2]
      simp only [ih, assign_assign]

theorem build_snoc (H : MapOrder) (ws : List Str) (s : Str) :
    (build H ws).insert H s = build H (ws ++ [s]) := by
  simp [build, List.foldl_append]

theorem findChildren_null (ch : ChildMap) (c : Char) (h : (c, none) ∈ ch) :
    ∀ cur acc, findChildren ch cur acc = none := by
  induction ch with
  | nil => simp at h
  | cons a r ih =>
    obtain ⟨k, v⟩ := a
    intro cur acc
    cases v with
    | none => rfl
    | some n =>
      have h1 : (c, none) ∈ r := by
        rcases List.mem_cons.1 h with h2 | h2
        · cases h2
        · exact h2
      rw [findChildren]
      cases findSuggestions n (cur ++ [k]) acc with
      | none => rfl
      | some s1 => exact ih h1 cur s1

theorem place_nil (H : MapOrder) (e : Char × Option TrieNode) : H.place e [] = [e] :=
  List.perm_singleton.1 (H.perm e [])

/-! ## Calls of `suggest` in between -/

theorem suggest_fst (H : MapOrder) (t : Trie) (pre : Str) :
    (t.suggest H pre).1 = ⟨(walk H pre t.root).1⟩ := by
  unfold Trie.suggest
  cases hw : walk H pre t.root with
  | mk r o => cases o <;> rfl

theorem suggest_miss (H : MapOrder) (t : Trie) (pre : Str) (h : descend pre t.root = none) :
    (t.suggest H pre).2 = some [] := by
  unfold Trie.suggest
  have h1 := walk_snd H pre t.root
  cases hw : walk H pre t.root with
  | mk r o =>
    rw [hw, h] at h1
    simp only at h1
    subst h1
    rfl

theorem walk_fst_of_descend (H : MapOrder) :
    ∀ (p : Str) (n m : TrieNode), descend p n = some m → (walk H p n).1 = n := by
  intro p
  induction p with
  | nil => intro n m _; rfl
  | cons c cs ih =>
    intro n m h
    cases n with
    | mk ch e =>
      rw [descend_cons] at h
      cases h3 : lookup c ch with
      | none => simp [h3] at h
      | some v =>
        cases v with
        | none => simp [h3] at h
        | some n0 =>
          simp only [h3] at h
          simp only [walk, touch_of_lookup H h3, h3, ih n0 m h, assign_self h3]

theorem findChildren_none_of_child (ch : ChildMap) (c : Char) (n : TrieNode)
    (hm : (c, some n) ∈ ch) (hn : ∀ cur acc, findSuggestions n cur acc = none) :
    ∀ cur acc, findChildren ch cur acc = none := by
  induction ch with
  | nil => simp at hm
  | cons a r ih =>
    obtain ⟨k, v⟩ := a
    intro cur acc
    cases v with
    | none => rfl
    | some m =>
      rw [findChildren]
      rcases List.mem_cons.1 hm with h1 | h1
      · cases h1
        rw [hn]
      · cases findSuggestions m (cur ++ [k]) acc with
        | none => rfl
        | some s1 => exact ih h1 cur s1

theorem findSuggestions_hasNull (n : TrieNode) (hn : HasNull n) :
    ∀ cur acc, findSuggestions n cur acc = none := by
  induction hn with
  | stored ch e c hc =>
    intro cur acc
    rw [findSuggestions]
    exact findChildren_null ch c hc _ _
  | deeper ch e c n hc _ ih =>
    intro cur acc
    rw [findSuggestions]
    exact findChildren_none_of_child ch c n hc ih _ _

theorem walk_cons (H : MapOrder) (c : Char) (cs : Str) (ch : ChildMap) (e : Bool) :
    walk H (c :: cs) (.mk ch e) =
      match lookup c ch with
      | some (some child) =>
        (.mk (assign c (some (walk H cs child).1) ch) e, (walk H cs child).2)
      | _ => (.mk (touch H c ch) e, none) := by
  simp only [walk, lookup_touch_self]
  cases h : lookup c ch with
  | none => rfl
  | some v =>
    cases v with
    | none => rfl
    | some child => simp only [Option.getD_some, touch_of_lookup H h]

theorem hasNull_walk (H : MapOrder) :
    ∀ (p : Str) (n : TrieNode), descend p n = none → HasNull (walk H p n).1 := by
  intro p
  induction p with
  | nil => intro n h; cases h
  | cons c cs ih =>
    intro n h
    cases n with
    | mk ch e =>
      rw [descend_cons] at h
      rw [walk_cons]
      have h1 := lookup_touch_self H c ch
      cases h3 : lookup c ch with
      | none =>
        rw [h3] at h1
        exact HasNull.stored _ e c (lookup_mem h1)
      | some v =>
        cases v with
        | none =>
          rw [h3] at h1
          exact HasNull.stored _ e c (lookup_mem h1)
        | some n0 =>
          simp only [h3] at h
          refine HasNull.deeper _ e c _ ?_ (ih n0 h)
          exact lookup_mem (lookup_assign_self _ (by rw [h3]; simp))

/-- A call of `suggest` whose walk reaches the end of its argument leaves the index as
it is. -/
theorem suggest_hit_unchanged (H : MapOrder) (t : Trie) (pre : Str) (m : TrieNode)
    (h : descend pre t.root = some m) : (t.suggest H pre).1 = t := by
  rw [suggest_fst, walk_fst_of_descend H pre t.root m h]

/-- After a call of `suggest` whose walk stops early, which returns the empty
sequence, the call `suggest ""` dereferences a null child, on every index. -/
theorem suggest_all_after_miss (H : MapOrder) (t : Trie) (pre : Str)
    (h : descend pre t.root = none) :
    (t.suggest H pre).2 = some [] ∧ (((t.suggest H pre).1).suggest H []).2 = none := by
  refine ⟨suggest_miss H t pre h, ?_⟩
  rw [suggest_fst]
  exact findSuggestions_hasNull _ (hasNull_walk H pre t.root h) _ _

theorem descend_walk_append (H : MapOrder) (Y : Str) :
    ∀ (P : Str) (n m : TrieNode), descend P n = some m →
      descend P (walk H (P ++ Y) n).1 = some (walk H Y m).1 := by
  intro P
  induction P with
  | nil =>
    intro n m h
    cases h
    rfl
  | cons c cs ih =>
    intro n m h
    cases n with
    | mk ch e =>
      rw [descend_cons] at h
      cases h3 : lookup c ch with
      | none => simp [h3] at h
      | some v =>
        cases v with
        | none => simp [h3] at h
        | some n0 =>
          simp only [h3] at h
          rw [List.cons_append, walk_cons]
          simp only [h3, descend_cons]
          rw [lookup_assign_self _ (by rw [h3]; simp)]
          exact ih n0 m h

/-- After a call `suggest (P ++ Y)` whose walk passes the node of `P` and stops early
below it, the call `suggest P` dereferences a null child, on every index. -/
theorem suggest_after_miss_below (H : MapOrder) (t : Trie) (P Y : Str) (m : TrieNode)
    (hP : descend P t.root = some m) (hY : descend Y m = none) :
    (((t.suggest H (P ++ Y)).1).suggest H P).2 = none := by
  have h1 := descend_walk_append H Y P t.root m hP
  rw [suggest_fst]
  unfold Trie.suggest
  have h2 := walk_snd H P (walk H (P ++ Y) t.root).1
  cases hw : walk H P (walk H (P ++ Y) t.root).1 with
  | mk r o =>
    rw [hw, h1] at h2
    simp only at h2
    subst h2
    exact findSuggestions_hasNull _ (hasNull_walk H Y m hY) _ _

theorem inv_walk (H : MapOrder) : ∀ (p : Str) (n : TrieNode), Inv n → Inv (walk H p n).1 := by
  intro p
  induction p with
  | nil => intro n hn; exact hn
  | cons c cs ih =>
    intro n hn
    cases hn with
    | mk ch e nd hc =>
      rw [walk_cons]
      have hmiss : Inv (.mk (touch H c ch) e) := by
        refine Inv.mk _ e (keys_touch_nodup H c ch nd) ?_
        intro k m hm
        rcases mem_touch H hm with h2 | h2
        · exact hc k m h2
        · cases h2
      cases h3 : lookup c ch with
      | none => exact hmiss
      | some v =>
        cases v with
        | none => exact hmiss
        | some n0 =>
          refine Inv.mk _ e (by rw [keys_assign]; exact nd) ?_
          intro k m hm
          rcases mem_assign hm with h2 | h2
          · exact hc k m h2
          · cases h2
            exact ih n0 (hc c n0 (lookup_mem h3))

theorem descend_touch (H : MapOrder) (c : Char) (ch : ChildMap) (e : Bool)
    (nd : (ch.map Prod.fst).Nodup) (q : Str) :
    (descend q (.mk (touch H c ch) e)).isSome = (descend q (.mk ch e)).isSome := by
  cases q with
  | nil => rfl
  | cons k ks =>
    rw [descend_cons, descend_cons]
    by_cases hk : k = c
    · subst hk
      rw [lookup_touch_self]
      cases h3 : lookup k ch with
      | none => rfl
      | some v => rfl
    · rw [lookup_touch_ne H ch nd hk]

theorem reach_walk (H : MapOrder) : ∀ (p q : Str) (n : TrieNode), Inv n →
    (descend q (walk H p n).1).isSome = (descend q n).isSome := by
  intro p
  induction p with
  | nil => intro q n _; rfl
  | cons c cs ih =>
    intro q n hn
    cases hn with
    | mk ch e nd hc =>
      rw [walk_cons]
      cases h3 : lookup c ch with
      | none => exact descend_touch H c ch e nd q
      | some v =>
        cases v with
        | none => exact descend_touch H c ch e nd q
        | some n0 =>
          cases q with
          | nil => rfl
          | cons k ks =>
            simp only [descend_cons]
            by_cases hk : k = c
            · subst hk
              rw [lookup_assign_self _ (by rw [h3]; simp), h3]
              exact ih ks n0 (hc k n0 (lookup_mem h3))
            · rw [lookup_assign_ne _ _ hk]

theorem reach_insertNode (H : MapOrder) (w : Str) : ∀ (q : Str) (n : TrieNode), Inv n →
    (descend q (insertNode H w n)).isSome = true → (descend q n).isSome = true ∨ q <+: w := by
  induction w with
  | nil =>
    intro q n hn h
    cases hn with
    | mk ch e nd hc =>
      cases q with
      | nil => exact Or.inl rfl
      | cons k ks => exact Or.inl h
  | cons c cs ih =>
    intro q n hn h
    cases hn with
    | mk ch e nd hc =>
      cases q with
      | nil => exact Or.inl rfl
      | cons k ks =>
        rw [insertNode_cons, descend_cons] at h
        rw [descend_cons]
        by_cases hk : k = c
        · subst hk
          have h1 : lookup k (touch H k ch) ≠ none := by
            rw [lookup_touch_self]
            simp
          rw [lookup_assign_self _ h1] at h
          simp only at h
          have hleaf : ∀ r : Str, (descend r (TrieNode.mk [] false)).isSome = true → r = [] := by
            intro r hr
            cases r with
            | nil => rfl
            | cons a b => simp [descend_cons, lookup] at hr
          cases h3 : lookup k ch with
          | none =>
            rw [h3] at h
            rcases ih ks _ inv_leaf h with h4 | h4
            · rw [hleaf ks h4]
              exact Or.inr (List.cons_prefix_cons.2 ⟨rfl, List.nil_prefix⟩)
            · exact Or.inr (List.cons_prefix_cons.2 ⟨rfl, h4⟩)
          | some v =>
            cases v with
            | none =>
              rw [h3] at h
              rcases ih ks _ inv_leaf h with h4 | h4
              · rw [hleaf ks h4]
                exact Or.inr (List.cons_prefix_cons.2 ⟨rfl, List.nil_prefix⟩)
              · exact Or.inr (List.cons_prefix_cons.2 ⟨rfl, h4⟩)
            | some n0 =>
              rw [h3] at h
              rcases ih ks _ (hc k n0 (lookup_mem h3)) h with h4 | h4
              · exact Or.inl h4
              · exact Or.inr (List.cons_prefix_cons.2 ⟨rfl, h4⟩)
        · rw [lookup_assign_ne _ _ hk, lookup_touch_ne H ch nd hk] at h
          exact Or.inl h

theorem foldl_apply_spec (H : MapOrder) (ops : List Op) :
    ∀ (t : Trie) (ws : List Str), Inv t.root →
      (∀ q, (descend q t.root).isSome = true → q = [] ∨ ∃ w ∈ ws, q <+: w) →
      Inv (ops.foldl (Op.apply H) t).root ∧
      ∀ q, (descend q (ops.foldl (Op.apply H) t).root).isSome = true →
        q = [] ∨ ∃ w ∈ ws ++ inserted ops, q <+: w := by
  induction ops with
  | nil =>
    intro t ws hi hr
    simpa [inserted] using ⟨hi, hr⟩
  | cons o r ih =>
    intro t ws hi hr
    cases o with
    | insert w =>
      have h1 := ih (t.insert H w) (ws ++ [w]) (inv_insertNode H w _ hi) (by
        intro q hq
        rcases reach_insertNode H w q t.root hi hq with h2 | h2
        · rcases hr q h2 with h3 | ⟨x, hx, h3⟩
          · exact Or.inl h3
          · exact Or.inr ⟨x, by simp [hx], h3⟩
        · exact Or.inr ⟨w, by simp, h2⟩)
      simpa [inserted, Op.apply] using h1
    | suggest p =>
      have h1 := ih (t.suggest H p).1 ws (by
        rw [suggest_fst]
        exact inv_walk H p _ hi) (by
        intro q hq
        rw [suggest_fst] at hq
        simp only at hq
        rw [reach_walk H p q t.root hi] at hq
        exact hr q hq)
      simpa [inserted, Op.apply] using h1

theorem descend_run (H : MapOrder) (ops : List Op) (X : Str) (hX : X ≠ [])
    (h : ∀ w ∈ inserted ops, ¬ X <+: w) : descend X (run H ops).root = none := by
  have h1 := (foldl_apply_spec H ops Trie.new [] inv_leaf (by
    intro q hq
    cases q with
    | nil => exact Or.inl rfl
    | cons a b => simp [Trie.new, descend_cons, lookup] at hq)).2 X
  cases hd : descend X (run H ops).root with
  | none => rfl
  | some m =>
    exfalso
    have h2 : (descend X (List.foldl (Op.apply H) Trie.new ops).root).isSome = true := by
      have : descend X (List.foldl (Op.apply H) Trie.new ops).root = some m := hd
      rw [this]
      rfl
    rcases h1 h2 with h3 | ⟨w, hw, h3⟩
    · exact hX h3
    · exact h w (by simpa using hw) h3

/-! ## The claims on the prefix index -/

theorem mem_suggest (H : MapOrder) (ws : List Str) (Q : Str) :
    ∃ out, ((build H ws).suggest H Q).2 = some out ∧
      ∀ s, s ∈ out ↔ (s ∈ ws ∧ Q <+: s) := by
  refine ⟨_, suggest_eq H (build H ws) (noNull_build H ws) Q, ?_⟩
  intro s
  cases hd : descend Q (build H ws).root with
  | none =>
    simp only [List.not_mem_nil, false_iff]
    rintro ⟨hs, r, rfl⟩
    have h1 := (isWord_build H ws (Q ++ r)).2 hs
    rw [isWord_append, hd] at h1
    cases h1
  | some m =>
    simp only [List.mem_map]
    have hm := inv_descend Q _ m (inv_build H ws) hd
    constructor
    · rintro ⟨w, hw, rfl⟩
      refine ⟨?_, List.prefix_append _ _⟩
      rw [← isWord_build H ws, isWord_append, hd]
      exact (mem_words m hm w).1 hw
    · rintro ⟨hs, r, rfl⟩
      refine ⟨r, ?_, rfl⟩
      have h1 := (isWord_build H ws (Q ++ r)).2 hs
      rw [isWord_append, hd] at h1
      exact (mem_words m hm r).2 h1

/-- C1: after inserting the strings `ws` into a fresh index, `suggest P` returns a
sequence whose elements are exactly the inserted strings that have `P` as a prefix;
`suggest ""` returns a sequence whose elements are exactly the inserted strings. -/
theorem suggest_exact (H : MapOrder) (ws : List Str) (P : Str) :
    (∃ out, ((build H ws).suggest H P).2 = some out ∧ ∀ s, s ∈ out ↔ (s ∈ ws ∧ P <+: s)) ∧
    (∃ all, ((build H ws).suggest H []).2 = some all ∧ ∀ s, s ∈ all ↔ s ∈ ws) := by
  refine ⟨mem_suggest H ws P, ?_⟩
  obtain ⟨all, h1, h2⟩ := mem_suggest H ws []
  exact ⟨all, h1, fun s => by simp [h2 s]⟩

/-- C4: on an index built by insertions, inserting `s` a second time leaves the index
unchanged, `suggest P` returns the same sequence after both, and `s` occurs exactly
once in it when `P` is a prefix of `s`. -/
theorem insert_idempotent (H : MapOrder) (ws : List Str) (s P : Str) :
    ((build H ws).insert H s).insert H s = (build H ws).insert H s ∧
    ∃ out, (((build H ws).insert H s).suggest H P).2 = some out ∧
      ((((build H ws).insert H s).insert H s).suggest H P).2 = some out ∧
      (P <+: s → out.count s = 1) := by
  have h0 : ((build H ws).insert H s).insert H s = (build H ws).insert H s := by
    show Trie.mk _ = Trie.mk _
    exact congrArg Trie.mk (insertNode_idem H s _)
  refine ⟨h0, ?_⟩
  rw [h0, build_snoc]
  refine ⟨_, suggest_eq H _ (noNull_build H _) P, suggest_eq H _ (noNull_build H _) P, ?_⟩
  intro hP
  obtain ⟨out, h1, h2⟩ := mem_suggest H (ws ++ [s]) P
  rw [suggest_eq H _ (noNull_build H _) P] at h1
  rw [Option.some.inj h1]
  have hmem : s ∈ out := (h2 s).2 ⟨by simp, hP⟩
  refine count_of_nodup _ _ ?_ hmem
  rw [← Option.some.inj h1]
  cases hd : descend P (build H (ws ++ [s])).root with
  | none => simp
  | some m =>
    simp only
    have hm := inv_descend P _ m (inv_build H _) hd
    refine List.Nodup.map ?_ ?_
    · intro a b hab
      exact List.append_cancel_left hab
    · unfold List.Nodup
      refine (pairwise_words m hm).imp ?_
      intro a b hab e
      subst e
      exact hab (List.prefix_refl _)

theorem insert_idempotent_witness :
    ∃ out, (((build insertionOrder ["Alice".toList]).insert insertionOrder
        "Alan".toList).suggest insertionOrder "Al".toList).2 = some out ∧
      out.count "Alan".toList = 1 := by
  obtain ⟨out, h1, _, h3⟩ :=
    (insert_idempotent insertionOrder ["Alice".toList] "Alan".toList "Al".toList).2
  exact ⟨out, h1, h3 (by decide)⟩

/-- C9: on an index built by insertions, a string of `suggest P` stands before every
string of `suggest P` that properly extends it, and `P` stands first when it was
inserted. -/
theorem suggest_shorter_first (H : MapOrder) (ws : List Str) (P : Str) :
    ∃ out, ((build H ws).suggest H P).2 = some out ∧
      (∀ (i j : Nat) (s t : Str), out.get? i = some s → out.get? j = some t →
        s <+: t → s ≠ t → i < j) ∧
      (P ∈ ws → out.head? = some P) := by
  refine ⟨_, suggest_eq H (build H ws) (noNull_build H ws) P, ?_, ?_⟩
  · intro i j s t hi hj hst hne
    cases hd : descend P (build H ws).root with
    | none => simp [hd] at hi
    | some m =>
      simp only [hd] at hi hj
      have hm := inv_descend P _ m (inv_build H ws) hd
      have hp : List.Pairwise (fun a b : Str => ¬ b <+: a) ((words m).map (P ++ ·)) := by
        rw [List.pairwise_map]
        refine (pairwise_words m hm).imp ?_
        intro a b hab h
        exact hab ((List.prefix_append_right_inj P).1 h)
      rw [List.get?_eq_getElem?] at hi hj
      obtain ⟨hi1, hi2⟩ := List.getElem?_eq_some.1 hi
      obtain ⟨hj1, hj2⟩ := List.getElem?_eq_some.1 hj
      by_contra hlt
      rcases Nat.lt_or_eq_of_le (Nat.le_of_not_lt hlt) with h1 | h1
      · have h2 := List.pairwise_iff_getElem.1 hp j i hj1 hi1 h1
        rw [hi2, hj2] at h2
        exact h2 hst
      · subst h1
        exact hne (hi2.symm.trans hj2)
  · intro hP
    have h1 := (isWord_build H ws P).2 hP
    unfold isWord at h1
    cases hd : descend P (build H ws).root with
    | none => simp [hd] at h1
    | some m =>
      simp only [hd] at h1
      cases m with
      | mk ch e =>
        have he : e = true := h1
        subst he
        simp [words]

theorem suggest_shorter_first_witness :
    ∃ out, ((build reverseOrder ["Alan".toList, "Al".toList]).suggest reverseOrder
        "Al".toList).2 = some out ∧ out.head? = some "Al".toList := by
  obtain ⟨out, h1, _, h3⟩ :=
    suggest_shorter_first reverseOrder ["Alan".toList, "Al".toList] "Al".toList
  exact ⟨out, h1, h3 (by decide)⟩

/-- C2 (failing input): with `"Alice"` inserted, `suggest "A"` returns `["Alice"]`;
after the call `suggest "Ab"`, whose walk stops at the node of `"A"`, the same call
`suggest "A"` dereferences a null child. -/
theorem suggest_after_miss_fails (H : MapOrder) :
    ((build H ["Alice".toList]).suggest H "A".toList).2 = some ["Alice".toList] ∧
    ((((build H ["Alice".toList]).suggest H "Ab".toList).1).suggest H "A".toList).2 = none := by
  have ht : build H ["Alice".toList] = ⟨.mk [('A', some (.mk [('l', some (.mk [('i', some
      (.mk [('c', some (.mk [('e', some (.mk [] true))] false))] false))] false))] false))]
      false⟩ := by
    simp [build, Trie.insert, Trie.new, insertNode, touch, lookup, place_nil, assign]
  rw [ht]
  constructor
  · simp [Trie.suggest, walk, touch, lookup, assign, findSuggestions, findChildren]
  · exact suggest_after_miss_below H _ ['A'] ['b'] _ rfl rfl

/-- The calls on unknown prefixes that do return the empty sequence: after any
sequence of calls of `insert` and `suggest` on a fresh index, `suggest X` returns the
empty sequence for every `X` that is not a prefix of an inserted string, provided `X`
is non-empty when no string was inserted. -/
theorem suggest_unknown_empty (H : MapOrder) (ops : List Op) (X : Str)
    (h : ∀ w ∈ inserted ops, ¬ X <+: w) (h0 : inserted ops = [] → X ≠ []) :
    ((run H ops).suggest H X).2 = some [] := by
  apply suggest_miss
  apply descend_run H ops X ?_ h
  intro hX
  subst hX
  cases hi : inserted ops with
  | nil => exact h0 hi rfl
  | cons w r => exact h w (by simp [hi]) List.nil_prefix

theorem suggest_unknown_empty_example :
    ((run insertionOrder [Op.insert "Alice".toList, Op.suggest "Ab".toList,
      Op.insert "Alan".toList, Op.suggest "B".toList]).suggest insertionOrder
        "Ab".toList).2 = some [] :=
  suggest_unknown_empty insertionOrder _ _ (by decide) (by decide)

/-- C3 (failing input): on a fresh index `suggest ""` returns the empty sequence;
after the call `suggest "b"`, which inserts no string, the empty string is still not a
prefix of any inserted string, and the call `suggest ""` dereferences a null child
instead of returning the empty sequence. -/
theorem suggest_empty_after_miss_fails (H : MapOrder) :
    (Trie.new.suggest H []).2 = some [] ∧
    inserted [Op.suggest ['b']] = [] ∧
    (∀ w ∈ inserted [Op.suggest ['b']], ¬ ([] : Str) <+: w) ∧
    ((run H [Op.suggest ['b']]).suggest H []).2 = none := by
  refine ⟨rfl, rfl, by simp [inserted], ?_⟩
  have h1 : run H [Op.suggest ['b']] = ⟨.mk [('b', none)] false⟩ := by
    simp [run, Op.apply, Trie.suggest, Trie.new, walk, touch, lookup, place_nil]
  rw [h1]
  rfl

/-! ## The derived value and its classification -/

theorem calculateBMI_unset (u : User) (hc : u.cachedBMI = -1) :
    u.calculateBMI =
      (u.weight / (u.height * u.height),
        { u with cachedBMI := u.weight / (u.height * u.height) }) := by
  unfold User.calculateBMI
  rw [if_pos (by rw [hc]; norm_num)]

theorem calculateBMI_hit (u : User) (hc : ¬ u.cachedBMI < 0) :
    u.calculateBMI = (u.cachedBMI, u) := by
  unfold User.calculateBMI
  rw [if_neg hc]

theorem healthCategory_fst (u : User) :
    u.healthCategory.1 =
      if u.calculateBMI.1 < 18.5 then "Underweight"
      else if u.calculateBMI.1 < 24.9 then "Normal weight"
      else if u.calculateBMI.1 < 29.9 then "Overweight"
      else "Obese" := by
  unfold User.healthCategory
  simp only
  split_ifs <;> rfl

theorem healthCategory_snd (u : User) : u.healthCategory.2 = u.calculateBMI.2 := by
  unfold User.healthCategory
  simp only
  split_ifs <;> rfl

/-- C8: for a record with positive weight and height and unset cache, the first call
of `calculateBMI` returns `weight / (height * height)` and stores it in the cache
(no other field changes); after it the guard `cachedBMI < 0` is false, so that later
calls do not compute or write, and any number of later calls return that same value
and leave the record as it is. -/
theorem calculateBMI_memoized (u : User) (hw : 0 < u.weight) (hh : 0 < u.height)
    (hc : u.cachedBMI = -1) :
    u.calculateBMI.1 = u.weight / (u.height * u.height) ∧
    u.calculateBMI.2 = { u with cachedBMI := u.weight / (u.height * u.height) } ∧
    ¬ u.calculateBMI.2.cachedBMI < 0 ∧
    ∀ k, User.calculateBMITimes k u.calculateBMI.2 =
      (List.replicate k (u.weight / (u.height * u.height)), u.calculateBMI.2) := by
  have hv : 0 < u.weight / (u.height * u.height) := div_pos hw (mul_pos hh hh)
  rw [calculateBMI_unset u hc]
  refine ⟨rfl, rfl, not_lt.2 hv.le, ?_⟩
  intro k
  induction k with
  | zero => rfl
  | succ k ih =>
    rw [User.calculateBMITimes, calculateBMI_hit _ (not_lt.2 hv.le)]
    simp only
    rw [ih]
    rfl

theorem calculateBMI_memoized_witness :
    User.calculateBMITimes 3 alice.calculateBMI.2 =
      (List.replicate 3 (alice.weight / (alice.height * alice.height)),
        alice.calculateBMI.2) :=
  (calculateBMI_memoized alice (by norm_num [alice]) (by norm_num [alice]) rfl).2.2.2 3

/-- C6: for a record with non-zero height and unset cache, with
`v = weight / (height * height)`, `healthCategory` returns `"Underweight"` iff
`v < 18.5`, `"Normal weight"` iff `18.5 ≤ v < 24.9`, `"Overweight"` iff
`24.9 ≤ v < 29.9` and `"Obese"` iff `29.9 ≤ v`; the values `18.5`, `24.9` and `29.9`
themselves are `"Normal weight"`, `"Overweight"` and `"Obese"`. -/
theorem healthCategory_thresholds (u : User) (_hh : u.height ≠ 0) (hc : u.cachedBMI = -1) :
    (u.healthCategory.1 = "Underweight" ↔ u.weight / (u.height * u.height) < 18.5) ∧
    (u.healthCategory.1 = "Normal weight" ↔
      18.5 ≤ u.weight / (u.height * u.height) ∧ u.weight / (u.height * u.height) < 24.9) ∧
    (u.healthCategory.1 = "Overweight" ↔
      24.9 ≤ u.weight / (u.height * u.height) ∧ u.weight / (u.height * u.height) < 29.9) ∧
    (u.healthCategory.1 = "Obese" ↔ 29.9 ≤ u.weight / (u.height * u.height)) ∧
    (u.weight / (u.height * u.height) = 18.5 → u.healthCategory.1 = "Normal weight") ∧
    (u.weight / (u.height * u.height) = 24.9 → u.healthCategory.1 = "Overweight") ∧
    (u.weight / (u.height * u.height) = 29.9 → u.healthCategory.1 = "Obese") := by
  rw [healthCategory_fst, calculateBMI_unset u hc]
  simp only
  generalize u.weight / (u.height * u.height) = v
  have e1 : ("Underweight" : String) ≠ "Normal weight" := by decide
  have e2 : ("Underweight" : String) ≠ "Overweight" := by decide
  have e3 : ("Underweight" : String) ≠ "Obese" := by decide
  have e4 : ("Normal weight" : String) ≠ "Overweight" := by decide
  have e5 : ("Normal weight" : String) ≠ "Obese" := by decide
  have e6 : ("Overweight" : String) ≠ "Obese" := by decide
  refine ⟨?_, ?_, ?_, ?_, ?_, ?_, ?_⟩
  · split_ifs with h1 h2 h3 <;> simp [h1, e1.symm, e2.symm, e3.symm]
  · split_ifs with h1 h2 h3
    · simp [e1, not_le.2 h1]
    · simp [h2, not_lt.1 h1]
    · simp [e4.symm, h2]
    · simp [e5.symm, h2]
  · split_ifs with h1 h2 h3
    · simp only [e2, false_iff, not_and]
      intro h
      exact absurd h (not_le.2 (lt_trans h1 (by norm_num)))
    · simp [e4, not_le.2 h2]
    · simp [h3, not_lt.1 h2]
    · simp [e6.symm, h3]
  · split_ifs with h1 h2 h3
    · simp only [e3, false_iff, not_le]
      exact lt_trans h1 (by norm_num)
    · simp only [e5, false_iff, not_le]
      exact lt_trans h2 (by norm_num)
    · simp [e6, h3]
    · simp [not_lt.1 h3]
  · intro h
    subst h
    norm_num
  · intro h
    subst h
    norm_num
  · intro h
    subst h
    norm_num

theorem healthCategory_thresholds_witness :
    ({ name := [], age := 0, weight := 18.5, height := 1, isVegetarian := false } :
      User).healthCategory.1 = "Normal weight" :=
  (healthCategory_thresholds _ (by norm_num) rfl).2.2.2.2.1 (by norm_num)

/-- C10: when the derived value of one record is at most that of another, the label
`healthCategory` gives the first is not higher than the label it gives the second on
the scale Underweight, Normal weight, Overweight, Obese; the label of a record is one
of these four, and they are pairwise different. -/
theorem healthCategory_monotone (u₁ u₂ : User) (h : u₁.calculateBMI.1 ≤ u₂.calculateBMI.1) :
    categoryRank u₁.healthCategory.1 ≤ categoryRank u₂.healthCategory.1 ∧
    u₁.healthCategory.1 ∈ ["Underweight", "Normal weight", "Overweight", "Obese"] ∧
    ["Underweight", "Normal weight", "Overweight", "Obese"].Nodup := by
  refine ⟨?_, ?_, by decide⟩
  · rw [healthCategory_fst, healthCategory_fst]
    generalize u₁.calculateBMI.1 = a at h
    generalize u₂.calculateBMI.1 = b at h
    have r0 : categoryRank "Underweight" = 0 := by decide
    have r1 : categoryRank "Normal weight" = 1 := by decide
    have r2 : categoryRank "Overweight" = 2 := by decide
    have r3 : categoryRank "Obese" = 3 := by decide
    split_ifs <;> simp only [r0, r1, r2, r3] <;> first | omega | (exfalso; linarith)
  · rw [healthCategory_fst]
    split_ifs <;> simp

theorem healthCategory_monotone_witness :
    categoryRank alice.healthCategory.1 ≤ categoryRank alan.healthCategory.1 :=
  (healthCategory_monotone alice alan (by norm_num [User.calculateBMI, alice, alan])).1

/-! ## The buckets -/

theorem mem_setInsert (p q : Nat) (s : List Nat) : q ∈ setInsert p s ↔ q = p ∨ q ∈ s := by
  induction s with
  | nil => simp [setInsert]
  | cons a r ih =>
    unfold setInsert
    split_ifs with h1 h2
    · simp
    · simp only [List.mem_cons, ih]
      tauto
    · have : p = a := by omega
      subst this
      simp

theorem holds_bucketInsert (k : String) (p : Nat) (m : Buckets) (k1 : String) (q : Nat) :
    Holds (bucketInsert k p m) k1 q ↔ Holds m k1 q ∨ (k1 = k ∧ q = p) := by
  induction m with
  | nil =>
    simp only [bucketInsert, Holds, List.mem_singleton, Prod.mk.injEq, List.not_mem_nil,
      false_and, exists_false, false_or]
    constructor
    · rintro ⟨s, ⟨h1, rfl⟩, h2⟩
      exact ⟨h1, by simpa [mem_setInsert] using h2⟩
    · rintro ⟨h1, h2⟩
      exact ⟨_, ⟨h1, rfl⟩, by simp [mem_setInsert, h2]⟩
  | cons a r ih =>
    obtain ⟨k2, s2⟩ := a
    unfold bucketInsert
    split_ifs with h1 h2
    · constructor
      · rintro ⟨s, hs, hq⟩
        rcases List.mem_cons.1 hs with h3 | h3
        · cases h3
          exact Or.inr ⟨rfl, by simpa [mem_setInsert] using hq⟩
        · exact Or.inl ⟨s, h3, hq⟩
      · rintro (⟨s, hs, hq⟩ | ⟨h3, h4⟩)
        · exact ⟨s, List.mem_cons_of_mem _ hs, hq⟩
        · exact ⟨_, List.mem_cons.2 (Or.inl (by rw [h3])), by simp [mem_setInsert, h4]⟩
    · constructor
      · rintro ⟨s, hs, hq⟩
        rcases List.mem_cons.1 hs with h3 | h3
        · exact Or.inl ⟨s, List.mem_cons.2 (Or.inl h3), hq⟩
        · rcases (ih.1 ⟨s, h3, hq⟩) with ⟨s1, h4, h5⟩ | h4
          · exact Or.inl ⟨s1, List.mem_cons_of_mem _ h4, h5⟩
          · exact Or.inr h4
      · rintro (⟨s, hs, hq⟩ | h3)
        · rcases List.mem_cons.1 hs with h4 | h4
          · exact ⟨s, List.mem_cons.2 (Or.inl h4), hq⟩
          · obtain ⟨s1, h5, h6⟩ := ih.2 (Or.inl ⟨s, h4, hq⟩)
            exact ⟨s1, List.mem_cons_of_mem _ h5, h6⟩
        · obtain ⟨s1, h5, h6⟩ := ih.2 (Or.inr h3)
          exact ⟨s1, List.mem_cons_of_mem _ h5, h6⟩
    · have hk : k2 = k := le_antisymm (not_lt.1 h1) (not_lt.1 h2)
      subst hk
      constructor
      · rintro ⟨s, hs, hq⟩
        rcases List.mem_cons.1 hs with h3 | h3
        · cases h3
          rcases (mem_setInsert p q s2).1 hq with h4 | h4
          · exact Or.inr ⟨rfl, h4⟩
          · exact Or.inl ⟨s2, List.mem_cons_self _ _, h4⟩
        · exact Or.inl ⟨s, List.mem_cons_of_mem _ h3, hq⟩
      · rintro (⟨s, hs, hq⟩ | ⟨h3, h4⟩)
        · rcases List.mem_cons.1 hs with h5 | h5
          · cases h5
            exact ⟨_, List.mem_cons_self _ _, (mem_setInsert p q _).2 (Or.inr hq)⟩
          · exact ⟨s, List.mem_cons_of_mem _ h5, hq⟩
        · subst h3
          exact ⟨_, List.mem_cons_self _ _, (mem_setInsert p q s2).2 (Or.inl h4)⟩

theorem keys_bucketInsert (k : String) (p : Nat) (m : Buckets) :
    ∀ x ∈ (bucketInsert k p m).map Prod.fst, x = k ∨ x ∈ m.map Prod.fst := by
  induction m with
  | nil => simp [bucketInsert]
  | cons a r ih =>
    obtain ⟨k2, s2⟩ := a
    intro x hx
    unfold bucketInsert at hx
    split_ifs at hx with h1 h2
    · simpa using hx
    · simp only [List.map_cons, List.mem_cons] at hx ⊢
      rcases hx with h3 | h3
      · exact Or.inr (Or.inl h3)
      · rcases ih x h3 with h4 | h4
        · exact Or.inl h4
        · exact Or.inr (Or.inr h4)
    · simp only [List.map_cons, List.mem_cons] at hx ⊢
      exact Or.inr hx

theorem sorted_bucketInsert (k : String) (p : Nat) (m : Buckets)
    (hm : List.Pairwise (· < ·) (m.map Prod.fst)) :
    List.Pairwise (· < ·) ((bucketInsert k p m).map Prod.fst) := by
  induction m with
  | nil => simp [bucketInsert]
  | cons a r ih =>
    obtain ⟨k2, s2⟩ := a
    simp only [List.map_cons, List.pairwise_cons] at hm
    unfold bucketInsert
    split_ifs with h1 h2
    · simp only [List.map_cons, List.pairwise_cons, List.mem_cons]
      refine ⟨?_, hm⟩
      rintro x (h3 | h3)
      · exact h3 ▸ h1
      · exact lt_trans h1 (hm.1 x h3)
    · simp only [List.map_cons, List.pairwise_cons]
      refine ⟨?_, ih hm.2⟩
      intro x hx
      rcases keys_bucketInsert k p r x hx with h3 | h3
      · exact h3 ▸ h2
      · exact hm.1 x h3
    · simp only [List.map_cons, List.pairwise_cons]
      exact hm

theorem categorizeLoop_spec (us : List User) :
    ∀ (i : Nat) (m : Buckets),
      (categorizeLoop i us m).1 = us.map (fun u => u.healthCategory.2) ∧
      (List.Pairwise (· < ·) (m.map Prod.fst) →
        List.Pairwise (· < ·) ((categorizeLoop i us m).2.map Prod.fst)) ∧
      ∀ k q, Holds (categorizeLoop i us m).2 k q ↔
        Holds m k q ∨ ∃ j u, us.get? j = some u ∧ q = i + j ∧ k = u.healthCategory.1 := by
  induction us with
  | nil =>
    intro i m
    simp [categorizeLoop]
  | cons u r ih =>
    intro i m
    obtain ⟨h1, h2, h3⟩ := ih (i + 1) (bucketInsert u.healthCategory.1 i m)
    refine ⟨?_, ?_, ?_⟩
    · simp [categorizeLoop, h1]
    · intro hm
      exact h2 (sorted_bucketInsert _ _ _ hm)
    · intro k q
      simp only [categorizeLoop]
      rw [h3, holds_bucketInsert]
      constructor
      · rintro ((h | ⟨h4, h5⟩) | ⟨j, v, h4, h5, h6⟩)
        · exact Or.inl h
        · exact Or.inr ⟨0, u, rfl, by omega, h4⟩
        · exact Or.inr ⟨j + 1, v, by simpa using h4, by omega, h6⟩
      · rintro (h | ⟨j, v, h4, h5, h6⟩)
        · exact Or.inl (Or.inl h)
        · cases j with
          | zero =>
            simp only [List.get?_cons_zero, Option.some.injEq] at h4
            subst h4
            exact Or.inl (Or.inr ⟨h6, by omega⟩)
          | succ j =>
            exact Or.inr ⟨j, v, by simpa using h4, by omega, h6⟩

theorem healthCategory_spec (u : User)
    (hc : u.cachedBMI = -1 ∨ u.cachedBMI = u.weight / (u.height * u.height)) :
    u.healthCategory.1 = specCategory (u.weight / (u.height * u.height)) := by
  have hv : u.calculateBMI.1 = u.weight / (u.height * u.height) := by
    unfold User.calculateBMI
    split_ifs with h
    · rfl
    · rcases hc with h1 | h1
      · rw [h1] at h
        norm_num at h
      · exact h1
  rw [healthCategory_fst, hv]
  unfold specCategory
  generalize u.weight / (u.height * u.height) = v
  by_cases h1 : v < 18.5
  · simp [h1]
  · by_cases h2 : v < 24.9
    · simp [h1, h2, not_lt.1 h1]
    · by_cases h3 : v < 29.9
      · simp [h1, h2, h3, not_lt.1 h1, not_lt.1 h2]
      · simp [h1, h2, h3]

theorem keys_categorizeLoop (us : List User) :
    ∀ (i : Nat) (m : Buckets), ∀ x ∈ (categorizeLoop i us m).2.map Prod.fst,
      x ∈ m.map Prod.fst ∨ ∃ u ∈ us, x = u.healthCategory.1 := by
  induction us with
  | nil =>
    intro i m x hx
    exact Or.inl hx
  | cons u r ih =>
    intro i m x hx
    rcases ih (i + 1) (bucketInsert u.healthCategory.1 i m) x hx with h | ⟨v, hv, h⟩
    · rcases keys_bucketInsert _ _ _ x h with h1 | h1
      · exact Or.inr ⟨u, List.mem_cons_self _ _, h1⟩
      · exact Or.inl h1
    · exact Or.inr ⟨v, List.mem_cons_of_mem _ hv, h⟩

theorem healthCategory_label (u : User) :
    u.healthCategory.1 ∈ ["Normal weight", "Obese", "Overweight", "Underweight"] := by
  rw [healthCategory_fst]
  split_ifs <;> simp

theorem holds_categorize (a : FitPlanAssistant) (k : String) (q : Nat) :
    Holds a.categorizeUsersByBMI.bmiCategories k q ↔
      ∃ u, a.users.get? q = some u ∧ k = u.healthCategory.1 := by
  have h := (categorizeLoop_spec a.users 0 []).2.2 k q
  simp only [FitPlanAssistant.categorizeUsersByBMI]
  rw [h]
  constructor
  · rintro (⟨s, hs, _⟩ | ⟨j, u, h1, h2, h3⟩)
    · simp at hs
    · have : q = j := by omega
      subst this
      exact ⟨u, h1, h3⟩
  · rintro ⟨u, h1, h2⟩
    exact Or.inr ⟨q, u, h1, by omega, h2⟩

theorem sorted_categorize (a : FitPlanAssistant) :
    List.Pairwise (· < ·) (a.categorizeUsersByBMI.bmiCategories.map Prod.fst) :=
  (categorizeLoop_spec a.users 0 []).2.1 (by simp)

theorem length_categorize (a : FitPlanAssistant) :
    a.categorizeUsersByBMI.users.length = a.users.length := by
  simp [FitPlanAssistant.categorizeUsersByBMI, (categorizeLoop_spec a.users 0 []).1]

theorem valid_categorize (a : FitPlanAssistant) (k : String) (s : List Nat) (p : Nat)
    (hs : (k, s) ∈ a.categorizeUsersByBMI.bmiCategories) (hp : p ∈ s) :
    p < a.categorizeUsersByBMI.users.length := by
  obtain ⟨u, h1, _⟩ := (holds_categorize a k p).1 ⟨s, hs, hp⟩
  rw [length_categorize, List.get?_eq_getElem?] at *
  exact (List.getElem?_eq_some.1 h1).1

theorem lt_normal_obese : "Normal weight" < "Obese" := by
  rw [String.lt_iff_toList_lt]
  decide

theorem lt_obese_overweight : "Obese" < "Overweight" := by
  rw [String.lt_iff_toList_lt]
  decide

theorem lt_overweight_underweight : "Overweight" < "Underweight" := by
  rw [String.lt_iff_toList_lt]
  decide

theorem healthCategory_alice : alice.healthCategory.1 = "Normal weight" := by
  norm_num [healthCategory_fst, User.calculateBMI, alice]

theorem healthCategory_alan : alan.healthCategory.1 = "Obese" := by
  norm_num [healthCategory_fst, User.calculateBMI, alan]

theorem healthCategory_bob : bob.healthCategory.1 = "Overweight" := by
  norm_num [healthCategory_fst, User.calculateBMI, bob]

theorem healthCategory_carol : carol.healthCategory.1 = "Underweight" := by
  norm_num [healthCategory_fst, User.calculateBMI, carol]

theorem listBucket_ok : ∀ (ps : List Nat) (users : List User), (∀ p ∈ ps, p < users.length) →
    ∃ out users1, listBucket ps users = some (out, users1) ∧ users1.length = users.length := by
  intro ps
  induction ps with
  | nil =>
    intro users _
    exact ⟨[], users, rfl, rfl⟩
  | cons p r ih =>
    intro users h
    have hp : p < users.length := h p (List.mem_cons_self _ _)
    have hg : users.get? p = some (users.get ⟨p, hp⟩) := List.get?_eq_get hp
    obtain ⟨out, users1, h1, h2⟩ := ih (users.set p (users.get ⟨p, hp⟩).calculateBMI.2)
      (fun q hq => by
        rw [List.length_set]
        exact h q (List.mem_cons_of_mem _ hq))
    refine ⟨((users.get ⟨p, hp⟩).name, (users.get ⟨p, hp⟩).calculateBMI.1) :: out, users1,
      ?_, ?_⟩
    · simp only [listBucket, hg, h1]
    · rw [h2, List.length_set]

theorem listBuckets_ok : ∀ (m : Buckets) (users : List User),
    (∀ k s p, (k, s) ∈ m → p ∈ s → p < users.length) →
    ∃ out users1, listBuckets m users = some (out, users1) ∧ users1.length = users.length ∧
      out.map Prod.fst = m.map Prod.fst := by
  intro m
  induction m with
  | nil =>
    intro users _
    exact ⟨[], users, rfl, rfl, rfl⟩
  | cons a r ih =>
    obtain ⟨k, s⟩ := a
    intro users h
    obtain ⟨names, users1, h1, h2⟩ :=
      listBucket_ok s users (fun p hp => h k s p (List.mem_cons_self _ _) hp)
    obtain ⟨out, users2, h3, h4, h5⟩ := ih users1 (fun k1 s1 p hm hp => by
      rw [h2]
      exact h k1 s1 p (List.mem_cons_of_mem _ hm) hp)
    refine ⟨(k, names) :: out, users2, ?_, ?_, ?_⟩
    · simp only [listBuckets, h1, h3]
    · rw [h4, h2]
    · simp [h5]

theorem list_categories (a : FitPlanAssistant) :
    ∃ out b, a.categorizeUsersByBMI.listUsersByBMICategory = some (out, b) ∧
      out.map Prod.fst = a.categorizeUsersByBMI.bmiCategories.map Prod.fst := by
  obtain ⟨out, users1, h1, _, h3⟩ := listBuckets_ok a.categorizeUsersByBMI.bmiCategories
    a.categorizeUsersByBMI.users (valid_categorize a)
  refine ⟨out, { a.categorizeUsersByBMI with users := users1 }, ?_, h3⟩
  simp only [FitPlanAssistant.listUsersByBMICategory, h1]

theorem keys_categorize (a : FitPlanAssistant) (k : String) :
    k ∈ a.categorizeUsersByBMI.bmiCategories.map Prod.fst ↔
      ∃ u ∈ a.users, k = u.healthCategory.1 := by
  constructor
  · intro hk
    rcases keys_categorizeLoop a.users 0 [] k hk with h | h
    · simp at h
    · exact h
  · rintro ⟨u, hu, hk⟩
    obtain ⟨i, hi⟩ := List.mem_iff_get?.1 hu
    obtain ⟨s, hs, _⟩ := (holds_categorize a k i).2 ⟨u, hi, hk⟩
    exact List.mem_map_of_mem Prod.fst hs

theorem sorted_positions (L : List String) (hL : List.Pairwise (· < ·) L) (k₁ k₂ : String)
    (h₁ : k₁ ∈ L) (h₂ : k₂ ∈ L) (hlt : k₁ < k₂) :
    (∃ i j, i < j ∧ L.get? i = some k₁ ∧ L.get? j = some k₂) ∧
    ∀ i j, L.get? i = some k₁ → L.get? j = some k₂ → i < j := by
  have key : ∀ i j, L.get? i = some k₁ → L.get? j = some k₂ → i < j := by
    intro i j hi hj
    rw [List.get?_eq_getElem?] at hi hj
    obtain ⟨hi1, hi2⟩ := List.getElem?_eq_some.1 hi
    obtain ⟨hj1, hj2⟩ := List.getElem?_eq_some.1 hj
    by_contra hij
    rcases Nat.lt_or_eq_of_le (Nat.le_of_not_lt hij) with h | h
    · have h3 := List.pairwise_iff_getElem.1 hL j i hj1 hi1 h
      rw [hi2, hj2] at h3
      exact lt_asymm hlt h3
    · subst h
      exact absurd (hi2.symm.trans hj2) (ne_of_lt hlt)
  obtain ⟨i, hi⟩ := List.mem_iff_get?.1 h₁
  obtain ⟨j, hj⟩ := List.mem_iff_get?.1 h₂
  exact ⟨⟨i, j, key i j hi hj, hi, hj⟩, key⟩

/-! ## The claims on the buckets -/

/-- C5: after `categorizeUsersByBMI`, whatever `bmiCategories` held before, when every
record has non-zero height and a cache that is unset or equal to
`weight / (height * height)`: the labels of the buckets are pairwise different; the
record at each position is in the bucket labelled with the classification of its
`weight / (height * height)` and in no other bucket; every member of a bucket is a
position of the collection.  Alice is under `"Normal weight"` and Alan under
`"Obese"`. -/
theorem categorize_partition :
    (∀ a : FitPlanAssistant,
      (∀ u ∈ a.users, u.height ≠ 0 ∧
        (u.cachedBMI = -1 ∨ u.cachedBMI = u.weight / (u.height * u.height))) →
      a.categorizeUsersByBMI.users.length = a.users.length ∧
      (a.categorizeUsersByBMI.bmiCategories.map Prod.fst).Nodup ∧
      (∀ i u, a.users.get? i = some u →
        ∃ s, (specCategory (u.weight / (u.height * u.height)), s) ∈
            a.categorizeUsersByBMI.bmiCategories ∧ i ∈ s ∧
          ∀ k s1, (k, s1) ∈ a.categorizeUsersByBMI.bmiCategories → i ∈ s1 →
            k = specCategory (u.weight / (u.height * u.height)) ∧ s1 = s) ∧
      (∀ k s p, (k, s) ∈ a.categorizeUsersByBMI.bmiCategories → p ∈ s →
        p < a.categorizeUsersByBMI.users.length)) ∧
    (FitPlanAssistant.categorizeUsersByBMI
        ⟨[alice, alan], [("Obese", [7])], Trie.new⟩).bmiCategories =
      [("Normal weight", [0]), ("Obese", [1])] := by
  constructor
  · intro a h
    have hnd : (a.categorizeUsersByBMI.bmiCategories.map Prod.fst).Nodup := by
      unfold List.Nodup
      exact (sorted_categorize a).imp (fun hab => ne_of_lt hab)
    refine ⟨length_categorize a, hnd, ?_, valid_categorize a⟩
    intro i u hu
    have hcls := healthCategory_spec u (h u (List.get?_mem hu)).2
    obtain ⟨s, hs, hi⟩ := (holds_categorize a _ i).2 ⟨u, hu, hcls.symm⟩
    refine ⟨s, hs, hi, ?_⟩
    intro k s1 hs1 hi1
    obtain ⟨v, hv, hk⟩ := (holds_categorize a k i).1 ⟨s1, hs1, hi1⟩
    rw [hu] at hv
    cases hv
    have hk1 : k = specCategory (u.weight / (u.height * u.height)) := hk.trans hcls
    refine ⟨hk1, ?_⟩
    subst hk1
    have := List.inj_on_of_nodup_map hnd hs1 hs rfl
    exact (Prod.mk.inj this).2
  · have h1 : ¬ "Obese" < "Normal weight" := not_lt_of_gt lt_normal_obese
    simp [FitPlanAssistant.categorizeUsersByBMI, categorizeLoop, healthCategory_alice,
      healthCategory_alan, bucketInsert, setInsert, h1, lt_normal_obese]
    decide

theorem categorize_partition_witness :
    (FitPlanAssistant.categorizeUsersByBMI
        ⟨[alice, alan], [("Obese", [7])], Trie.new⟩).users.length = 2 ∧
    ∀ k s p, (k, s) ∈ (FitPlanAssistant.categorizeUsersByBMI
        ⟨[alice, alan], [("Obese", [7])], Trie.new⟩).bmiCategories → p ∈ s →
      p < (FitPlanAssistant.categorizeUsersByBMI
        ⟨[alice, alan], [("Obese", [7])], Trie.new⟩).users.length :=
  have h := categorize_partition.1 ⟨[alice, alan], [("Obese", [7])], Trie.new⟩
    (by
      intro u hu
      simp only [List.mem_cons, List.mem_singleton, List.not_mem_nil, or_false] at hu
      rcases hu with rfl | rfl
      · exact ⟨by norm_num [alice], Or.inl rfl⟩
      · exact ⟨by norm_num [alan], Or.inl rfl⟩)
  ⟨h.1, h.2.2.2⟩

/-- C7 (counterexample): with Alice, Alan, Bob and Carol in the collection, the
categories are listed as Normal weight, Obese, Overweight, Underweight, which is not
ascending on the scale Underweight, Normal weight, Overweight, Obese. -/
theorem list_order_not_by_rank :
    ∃ out b, (FitPlanAssistant.categorizeUsersByBMI
        ⟨[alice, alan, bob, carol], [], Trie.new⟩).listUsersByBMICategory = some (out, b) ∧
      out.map Prod.fst = ["Normal weight", "Obese", "Overweight", "Underweight"] ∧
      ¬ List.Pairwise (fun x y => categoryRank x < categoryRank y) (out.map Prod.fst) := by
  obtain ⟨out, b, h1, h2⟩ := list_categories ⟨[alice, alan, bob, carol], [], Trie.new⟩
  have h3 : (FitPlanAssistant.categorizeUsersByBMI
      ⟨[alice, alan, bob, carol], [], Trie.new⟩).bmiCategories.map Prod.fst =
      ["Normal weight", "Obese", "Overweight", "Underweight"] := by
    have l1 := lt_normal_obese
    have l2 := lt_obese_overweight
    have l3 := lt_overweight_underweight
    have l4 := lt_trans l1 l2
    have l5 := lt_trans l2 l3
    have l6 := lt_trans l4 l3
    simp [FitPlanAssistant.categorizeUsersByBMI, categorizeLoop, healthCategory_alice,
      healthCategory_alan, healthCategory_bob, healthCategory_carol, bucketInsert, setInsert,
      l1, l2, l3, l4, l5, l6, not_lt_of_gt l1, not_lt_of_gt l2, not_lt_of_gt l3,
      not_lt_of_gt l4, not_lt_of_gt l5, not_lt_of_gt l6]
  refine ⟨out, b, h1, h2.trans h3, ?_⟩
  rw [h2, h3]
  decide

/-- C7 (amended): after a rebuild, `listUsersByBMICategory` succeeds and lists the
labels of the buckets of `bmiCategories`, in their order; the listed labels are exactly
the categories `healthCategory` gives the records; they are listed in strictly
ascending order of the label strings, which for the four labels is
`"Normal weight" < "Obese" < "Overweight" < "Underweight"`; so whenever the categories
of two records differ, the one whose label is the smaller string is listed, and at an
earlier position than the other. -/
theorem list_order_lexicographic (a : FitPlanAssistant) :
    ∃ out b, a.categorizeUsersByBMI.listUsersByBMICategory = some (out, b) ∧
      out.map Prod.fst = a.categorizeUsersByBMI.bmiCategories.map Prod.fst ∧
      (∀ k, k ∈ out.map Prod.fst ↔ ∃ u ∈ a.users, k = u.healthCategory.1) ∧
      List.Pairwise (· < ·) (out.map Prod.fst) ∧
      (∀ u₁ ∈ a.users, ∀ u₂ ∈ a.users, u₁.healthCategory.1 < u₂.healthCategory.1 →
        (∃ i j, i < j ∧ (out.map Prod.fst).get? i = some u₁.healthCategory.1 ∧
          (out.map Prod.fst).get? j = some u₂.healthCategory.1) ∧
        ∀ i j, (out.map Prod.fst).get? i = some u₁.healthCategory.1 →
          (out.map Prod.fst).get? j = some u₂.healthCategory.1 → i < j) ∧
      (∀ k ∈ out.map Prod.fst, k ∈ ["Normal weight", "Obese", "Overweight", "Underweight"]) ∧
      List.Pairwise (· < ·) ["Normal weight", "Obese", "Overweight", "Underweight"] := by
  obtain ⟨out, b, h1, h2⟩ := list_categories a
  have hs : List.Pairwise (· < ·) (out.map Prod.fst) := by
    rw [h2]
    exact sorted_categorize a
  have hk : ∀ k, k ∈ out.map Prod.fst ↔ ∃ u ∈ a.users, k = u.healthCategory.1 := by
    intro k
    rw [h2]
    exact keys_categorize a k
  refine ⟨out, b, h1, h2, hk, hs, ?_, ?_, ?_⟩
  · intro u₁ hu₁ u₂ hu₂ hlt
    exact sorted_positions _ hs _ _ ((hk _).2 ⟨u₁, hu₁, rfl⟩) ((hk _).2 ⟨u₂, hu₂, rfl⟩) hlt
  · intro k hk1
    obtain ⟨u, _, h⟩ := (hk k).1 hk1
    rw [h]
    exact healthCategory_label u
  · have l1 := lt_normal_obese
    have l2 := lt_obese_overweight
    have l3 := lt_overweight_underweight
    have l4 := lt_trans l1 l2
    have l5 := lt_trans l2 l3
    have l6 := lt_trans l4 l3
    simp only [List.pairwise_cons, List.mem_cons, List.mem_singleton, List.not_mem_nil,
      forall_eq_or_imp, forall_eq, List.Pairwise.nil, and_true, false_implies, implies_true]
    exact ⟨⟨l1, l4, l6⟩, ⟨l2, l5⟩, l3⟩

theorem list_order_lexicographic_witness :
    ∃ out b, (FitPlanAssistant.categorizeUsersByBMI
        ⟨[carol, alice], [], Trie.new⟩).listUsersByBMICategory = some (out, b) ∧
      ∃ i j, i < j ∧ (out.map Prod.fst).get? i = some "Normal weight" ∧
        (out.map Prod.fst).get? j = some "Underweight" := by
  obtain ⟨out, b, h1, _, _, _, h5, _⟩ :=
    list_order_lexicographic ⟨[carol, alice], [], Trie.new⟩
  have h := (h5 alice (by simp) carol (by simp) (by
    rw [healthCategory_alice, healthCategory_carol]
    exact lt_trans lt_normal_obese (lt_trans lt_obese_overweight lt_overweight_underweight))).1
  rw [healthCategory_alice, healthCategory_carol] at h
  exact ⟨out, b, h1, h⟩

end FitPlan
